import Mathlib

/-!
# Formal model of `bevy-ui-build-macros` (`src/lib.rs`)

The crate is a set of `macro_rules!` macros: value-literal builders
(`unit!`, `size!`, `rect!`, `style!`) and the tree compiler `build_ui!`,
which expands a declarative UI-tree description into `spawn` / `insert` /
`add_child` calls against the bevy command API.

The shallow embedding below models:

* `rect!` as a function on the list of (already-built) edge values; the
  macro's arm dispatch on argument arity is the `match` on list length, and
  "no macro arm matches" (a definition-time rejection) is `none`;
* `style!(@default (base) fields)` — a Rust struct-update expression
  `Style { f₁ : v₁, …, ..base }` — as `styleMerge` over a concrete field
  enumeration; a duplicate field name in a Rust struct expression is a
  definition-time error (E0062, "field specified more than once"), modelled
  as `none`;
* `build_ui!` as a recursive expansion over the declared tree.  The macro
  is expanded and type-checked in full at compile time (both branches of
  every `if`/`else` entry are expanded); the generated code then runs,
  evaluating each predicate once and executing only the chosen branch.
  This is modelled as a definition-time `checkNode` pass over the whole
  tree followed by a runtime `expandNode` pass that allocates handles,
  evaluates predicates and emits the operation stream.  All definition-time
  (macro / type) errors are `Except.error`, so an erroneous tree never
  yields a partial operation stream.
* the bevy command sinks (`ChildBuilder::spawn`, `Commands::spawn`,
  `insert`, `AddChild`) are external collaborators; they are modelled at
  the interface the spec states for them: spawning under an open parent
  creates the entity and links it to the parent immediately, `insert`
  attaches one bundle/component, `AddChild` links an existing entity.
-/

namespace BevyUiBuild

/-- `bevy::ui::Val`, the output type of the `unit!` macro.  The numeric
payload (`$value as f32` in the source) is modelled as an integer; no claim
depends on float arithmetic. -/
inductive Val where
  | px (v : Int)
  | percent (v : Int)
  | auto
  | undefined
deriving DecidableEq, Repr

/-- `bevy::ui::UiRect`: a four-edge record. -/
structure UiRect where
  left : Val
  top : Val
  right : Val
  bottom : Val
deriving DecidableEq, Repr

/-- `bevy::ui::UiRect::all`. -/
def UiRect.all (v : Val) : UiRect := ⟨v, v, v, v⟩

/-- The `rect!` macro (src/lib.rs lines 76–99).  Its arms, in source
order: one argument ⇒ `UiRect::all`; four arguments ⇒ fields
`left, top, right, bottom` in that literal order; two arguments ⇒
`left = right = first`, `top = bottom = second`.  Any other arity matches
no arm, which is a definition-time rejection (`none`). -/
def rect : List Val → Option UiRect
  | [x] => some (UiRect.all x)
  | [l, t, r, b] => some ⟨l, t, r, b⟩
  | [x, y] => some ⟨x, y, x, y⟩
  | _ => none

/-- Names of the `bevy::ui::Style` fields the model carries.  `Style` is an
external bevy type; a representative finite field set suffices, since the
merge logic of `style!` is uniform in the field. -/
inductive FieldName where
  | size
  | margin
  | flexWrap
  | justifyContent
deriving DecidableEq, Repr

/-- Style field values, opaque to the merge logic. -/
abbrev SVal := Nat

/-- The model of `bevy::ui::Style`: one value per field. -/
structure StyleRecord where
  size : SVal := 0
  margin : SVal := 0
  flexWrap : SVal := 0
  justifyContent : SVal := 0
deriving DecidableEq, Repr

/-- Read one field of a style record. -/
def getField (s : StyleRecord) : FieldName → SVal
  | .size => s.size
  | .margin => s.margin
  | .flexWrap => s.flexWrap
  | .justifyContent => s.justifyContent

/-- Write one field of a style record. -/
def setField (s : StyleRecord) : FieldName × SVal → StyleRecord
  | (.size, v) => { s with size := v }
  | (.margin, v) => { s with margin := v }
  | (.flexWrap, v) => { s with flexWrap := v }
  | (.justifyContent, v) => { s with justifyContent := v }

/-- The `style!(@default (base) f₁ : v₁, …)` arm (src/lib.rs lines 33–35):
it expands to the Rust struct expression `Style { f₁ : v₁, …, ..base }`.
Rust struct-expression semantics: every named field takes the given value,
all other fields come from `base`; naming the same field twice is a
definition-time error (E0062), modelled as `none`. -/
def styleMerge (base : StyleRecord) (ov : List (FieldName × SVal)) :
    Option StyleRecord :=
  if (ov.map Prod.fst).Nodup then some (ov.foldl setField base) else none

/-- An entity handle, as issued by the host entity system (bevy `Entity`). -/
abbrev EntityId := Nat

/-- A template ("preset") value a caller-scope variable may hold.
`unit` is the `()` bundle produced by the `entity` keyword arm;
`plain` is an arbitrary bundle without a `style` field;
`nodeBundle` is `bevy::ui::node_bundles::NodeBundle` (a `style` field plus
its remaining fields, modelled opaquely as `rest`);
`otherStyled` is a bundle that has a `style` field but is not a
`NodeBundle` (e.g. `ButtonBundle`) — the struct-update expression
`NodeBundle { style: …, ..x }` is a type error for it. -/
inductive Template where
  | unit
  | plain (data : Nat)
  | nodeBundle (style : StyleRecord) (rest : Nat)
  | otherStyled (style : StyleRecord) (rest : Nat)
deriving DecidableEq, Repr

/-- Whether a template value carries a style record. -/
def carriesStyle : Template → Bool
  | .nodeBundle _ _ => true
  | .otherStyled _ _ => true
  | .unit => false
  | .plain _ => false

/-- The caller's scope: which template value each preset name denotes.
It is a pure map — expansion only ever reads it (every use in the source
goes through `.clone()`), so the caller's template values are never
consumed or mutated. -/
abbrev Env := String → Option Template

/-- Definition-time (macro-expansion / type-checking) errors. -/
inductive Err where
  | unknownPreset (name : String)
  | duplicateStyleField
  | styleOnStyleless
  | rootExisting
  | rootConditional
deriving DecidableEq, Repr

/-- The `@preset` arms of `build_ui!` (src/lib.rs lines 210–217), resolving
a preset ident plus an optional style-override block to the template value
passed to `spawn`:
* bare keyword `entity` ⇒ the unit bundle `()`;
* bare ident ⇒ the variable's value (unknown name: definition-time error);
* ident plus `{…}` block ⇒ the struct expression
  `NodeBundle { style: style!(@default ($node.style.clone()) …), ..$node.clone() }`,
  which requires the variable to be a `NodeBundle` (otherwise the
  `..$node.clone()` update — or the `.style` access — is a type error) and
  rejects duplicate style fields (E0062). -/
def presetExpand (env : Env) (name : String) :
    Option (List (FieldName × SVal)) → Except Err Template
  | none =>
    if name = "entity" then .ok .unit
    else
      match env name with
      | some t => .ok t
      | none => .error (.unknownPreset name)
  | some ovs =>
    match env name with
    | some (.nodeBundle st rest) =>
      match styleMerge st ovs with
      | some merged => .ok (.nodeBundle merged rest)
      | none => .error .duplicateStyleField
    | some _ => .error .styleOnStyleless
    | none => .error (.unknownPreset name)

/-- One operation of the emitted stream, against the host entity system. -/
inductive Op where
  | createEntity (handle : EntityId) (template : Template)
  | linkChild (parent : EntityId) (child : EntityId)
  | attachBundle (handle : EntityId) (bundle : Nat)
  | attachComponent (handle : EntityId) (comp : Nat)
deriving DecidableEq, Repr

mutual
/-- One declared tree entry, mirroring the `build_ui!` grammar:
* `existing id` — the `id($id:expr)` arm (line 293): reuse an existing
  entity handle as a child;
* `node name ovs bundles comps children` — the general arm (line 302): a
  preset ident (the keyword `entity` is the name `"entity"`), an optional
  `{…}` style-override block, the `[bundles; comps]` attachment lists and
  the `(…)` child list (extra bundles and components are opaque values);
* `condIf` / `condIfElse` — the `if (pred) {…}` and
  `if (pred) {…} else {…}` child-list arms (lines 219–270).  Predicates
  are runtime boolean expressions; an entry's predicate is modelled as an
  index into a predicate environment. -/
inductive ChildEntry where
  | existing (id : EntityId)
  | node (name : String) (ovs : Option (List (FieldName × SVal)))
      (bundles : List Nat) (comps : List Nat) (children : ChildList)
  | condIf (pid : Nat) (thenB : ChildList)
  | condIfElse (pid : Nat) (thenB : ChildList) (elseB : ChildList)

/-- An ordered child list (`@child_list` input). -/
inductive ChildList where
  | nil
  | cons (e : ChildEntry) (rest : ChildList)
end

/-- The values of the predicate expressions at expansion time. -/
abbrev PredEnv := Nat → Bool

mutual
/-- Runtime expansion of one tree entry (the generated code of the
`#[cmd(..)]` arms, src/lib.rs lines 293–317).  Arguments: the caller scope
`env`, the predicate values `penv`, the currently-open parent (none at the
root, where `$cmds` is a plain `Commands`), and the next fresh entity
handle.  Returns the entry's resulting handle, the next fresh handle, the
emitted operation stream, and the trace of predicate evaluations in order.

* `id($id)` (line 293): under an open parent it pushes one `AddChild`
  command — exactly one `LinkChild(parent, id)`, no entity creation.  At
  the root `$cmds.parent_entity()` does not exist on `Commands`: a
  definition-time error.
* the general arm (line 302): `spawn` the resolved preset (a fresh entity;
  under an open parent, `ChildBuilder::spawn` links the new entity to the
  parent immediately — the host interface guarantees `link_child` is valid
  directly after `create`), then one `.insert($bundle.clone())` per extra
  bundle in declared order, then one `.insert($component.clone())` per
  extra component in declared order, then `.with_children` expands the
  child list under the new handle.
* a conditional at the top level of the macro matches no arm: a
  definition-time error (it can only appear inside a child list). -/
def expandNode (env : Env) (penv : PredEnv) (parent : Option EntityId)
    (fresh : EntityId) :
    ChildEntry → Except Err (EntityId × EntityId × List Op × List Nat)
  | .existing id =>
    match parent with
    | some p => .ok (id, fresh, [.linkChild p id], [])
    | none => .error .rootExisting
  | .node name ovs bs cs children =>
    match presetExpand env name ovs with
    | .error e => .error e
    | .ok tmpl =>
      match expandList env penv fresh (fresh + 1) children with
      | .error e => .error e
      | .ok (f2, cOps, cLog) =>
        .ok (fresh, f2,
          .createEntity fresh tmpl ::
            ((match parent with
              | some p => [Op.linkChild p fresh]
              | none => []) ++
              (bs.map (Op.attachBundle fresh) ++
                (cs.map (Op.attachComponent fresh) ++ cOps))),
          cLog)
  | .condIf _ _ => .error .rootConditional
  | .condIfElse _ _ _ => .error .rootConditional

/-- Runtime expansion of a child list (the `@child_list` arms, src/lib.rs
lines 219–292), under an open parent handle.  Entries are processed
strictly in declared order and their operation blocks concatenated.  A
conditional entry evaluates its predicate exactly once when reached (the
generated code is a runtime `if`) and executes only the chosen branch; a
false `condIf` executes nothing for that entry. -/
def expandList (env : Env) (penv : PredEnv) (parent : EntityId)
    (fresh : EntityId) :
    ChildList → Except Err (EntityId × List Op × List Nat)
  | .nil => .ok (fresh, [], [])
  | .cons (.condIf pid tB) rest =>
    match (if penv pid then expandList env penv parent fresh tB
           else .ok (fresh, [], [])) with
    | .error e => .error e
    | .ok (f1, bOps, bLog) =>
      match expandList env penv parent f1 rest with
      | .error e => .error e
      | .ok (f2, rOps, rLog) => .ok (f2, bOps ++ rOps, pid :: (bLog ++ rLog))
  | .cons (.condIfElse pid tB eB) rest =>
    match (if penv pid then expandList env penv parent fresh tB
           else expandList env penv parent fresh eB) with
    | .error e => .error e
    | .ok (f1, bOps, bLog) =>
      match expandList env penv parent f1 rest with
      | .error e => .error e
      | .ok (f2, rOps, rLog) => .ok (f2, bOps ++ rOps, pid :: (bLog ++ rLog))
  | .cons e rest =>
    match expandNode env penv (some parent) fresh e with
    | .error er => .error er
    | .ok (_, f1, ops, log) =>
      match expandList env penv parent f1 rest with
      | .error er => .error er
      | .ok (f2, rOps, rLog) => .ok (f2, ops ++ rOps, log ++ rLog)
end

mutual
/-- Definition-time check of one tree entry: everything `rustc` rejects
while expanding and type-checking the macro output, before any generated
code runs.  Both branches of every conditional are expanded and checked
(the `if` is in the *generated* code; the macro expands both).  `root` is
true for the entry given directly to `build_ui!`. -/
def checkNode (env : Env) (root : Bool) : ChildEntry → Except Err Unit
  | .existing _ => if root then .error .rootExisting else .ok ()
  | .node name ovs _ _ children =>
    match presetExpand env name ovs with
    | .error e => .error e
    | .ok _ => checkList env children
  | .condIf _ tB => if root then .error .rootConditional else checkList env tB
  | .condIfElse _ tB eB =>
    if root then .error .rootConditional
    else
      match checkList env tB with
      | .error e => .error e
      | .ok _ => checkList env eB

/-- Definition-time check of a child list. -/
def checkList (env : Env) : ChildList → Except Err Unit
  | .nil => .ok ()
  | .cons e rest =>
    match checkNode env false e with
    | .error er => .error er
    | .ok _ => checkList env rest
end

/-- A whole `build_ui! { #[cmd(cmds)] root }` invocation: the macro output
must first expand and type-check in full (definition time; any error there
means no code runs and no operation is emitted), then the generated code
runs from fresh handle 0 with no open parent and emits the operation
stream.  An `Except.error` result carries no operations: a malformed tree
never produces a partial stream. -/
def buildUI (env : Env) (penv : PredEnv) (root : ChildEntry) :
    Except Err (List Op) :=
  match checkNode env true root with
  | .error e => .error e
  | .ok _ =>
    match expandNode env penv none 0 root with
    | .error e => .error e
    | .ok (_, _, ops, _) => .ok ops

/-- The handles of the `CreateEntity` operations of a stream, in order. -/
def createdHandles : List Op → List EntityId
  | [] => []
  | .createEntity h _ :: rest => h :: createdHandles rest
  | .linkChild _ _ :: rest => createdHandles rest
  | .attachBundle _ _ :: rest => createdHandles rest
  | .attachComponent _ _ :: rest => createdHandles rest

/-- Concatenation of child lists. -/
def ChildList.append : ChildList → ChildList → ChildList
  | .nil, l => l
  | .cons e rest, l => .cons e (rest.append l)

mutual
/-- The tree entry contains no conditional (`if` / `if-else`) entry. -/
def noCondE : ChildEntry → Bool
  | .existing _ => true
  | .node _ _ _ _ children => noCondL children
  | .condIf _ _ => false
  | .condIfElse _ _ _ => false

/-- The child list contains no conditional entry. -/
def noCondL : ChildList → Bool
  | .nil => true
  | .cons e rest => noCondE e && noCondL rest
end

mutual
/-- The tree contains a node with a non-empty style-override block whose
resolved template does not carry a style record (an unknown preset name —
in particular the `entity` keyword routed through the ident arm — or a
template value without a `style` field).  Both branches of every
conditional count: the macro expands them regardless of the predicate. -/
def hasBadStyleE (env : Env) : ChildEntry → Bool
  | .existing _ => false
  | .node name ovs _ _ children =>
    (match ovs with
     | some l =>
       !l.isEmpty &&
         (match env name with
          | some t => !carriesStyle t
          | none => true)
     | none => false) ||
      hasBadStyleL env children
  | .condIf _ tB => hasBadStyleL env tB
  | .condIfElse _ tB eB => hasBadStyleL env tB || hasBadStyleL env eB

/-- List version of `hasBadStyleE`. -/
def hasBadStyleL (env : Env) : ChildList → Bool
  | .nil => false
  | .cons e rest => hasBadStyleE env e || hasBadStyleL env rest
end

mutual
/-- Modelled from the spec's words (§4.3 steps 4–8, §8 third bullet), for
comparison with `expandNode`: explicit pre-order emission for
conditional-free trees.  A node's own operation block — `CreateEntity`,
`LinkChild` when a parent is open, the attachments — is emitted as one
contiguous block *followed by* the concatenation of its children's blocks;
an existing-entity entry's block is its single `LinkChild`.  Conditional
entries are outside this function's domain (`none`). -/
def preorderE (env : Env) (parent : Option EntityId) (fresh : EntityId) :
    ChildEntry → Option (EntityId × EntityId × List Op)
  | .existing id =>
    match parent with
    | some p => some (id, fresh, [.linkChild p id])
    | none => none
  | .node name ovs bs cs children =>
    match presetExpand env name ovs with
    | .error _ => none
    | .ok tmpl =>
      match preorderL env fresh (fresh + 1) children with
      | none => none
      | some (f2, cOps) =>
        some (fresh, f2,
          (Op.createEntity fresh tmpl ::
            ((match parent with
              | some p => [Op.linkChild p fresh]
              | none => []) ++
              (bs.map (Op.attachBundle fresh) ++
                cs.map (Op.attachComponent fresh)))) ++ cOps)
  | .condIf _ _ => none
  | .condIfElse _ _ _ => none

/-- Pre-order emission of a conditional-free child list: sibling blocks
strictly in declared order. -/
def preorderL (env : Env) (parent : EntityId) (fresh : EntityId) :
    ChildList → Option (EntityId × List Op)
  | .nil => some (fresh, [])
  | .cons e rest =>
    match preorderE env (some parent) fresh e with
    | none => none
    | some (_, f1, ops) =>
      match preorderL env parent f1 rest with
      | none => none
      | some (f2, rOps) => some (f2, ops ++ rOps)
end

/-! ## Style-merge lemmas -/

theorem getField_setField_self (s : StyleRecord) (f : FieldName) (v : SVal) :
    getField (setField s (f, v)) f = v := by
  cases f <;> rfl

theorem getField_setField_ne (s : StyleRecord) (f g : FieldName) (v : SVal)
    (h : g ≠ f) : getField (setField s (g, v)) f = getField s f := by
  cases f <;> cases g <;> simp_all [setField, getField]

theorem getField_foldl_not_mem (ov : List (FieldName × SVal))
    (base : StyleRecord) (f : FieldName) (h : f ∉ ov.map Prod.fst) :
    getField (ov.foldl setField base) f = getField base f := by
  induction ov generalizing base with
  | nil => rfl
  | cons gv tl ih =>
    obtain ⟨g, w⟩ := gv
    simp only [List.map_cons, List.mem_cons] at h
    push_neg at h
    simp only [List.foldl_cons]
    rw [ih _ h.2, getField_setField_ne _ _ _ _ (Ne.symm h.1)]

theorem getField_foldl_mem (ov : List (FieldName × SVal)) (base : StyleRecord)
    (f : FieldName) (v : SVal) (hnd : (ov.map Prod.fst).Nodup)
    (h : (f, v) ∈ ov) : getField (ov.foldl setField base) f = v := by
  induction ov generalizing base with
  | nil => cases h
  | cons gv tl ih =>
    obtain ⟨g, w⟩ := gv
    simp only [List.map_cons, List.nodup_cons] at hnd
    simp only [List.foldl_cons]
    rcases List.mem_cons.mp h with heq | hmem
    · obtain ⟨rfl, rfl⟩ := Prod.mk.injEq .. ▸ heq
      rw [getField_foldl_not_mem _ _ _ hnd.1, getField_setField_self]
    · exact ih (setField base (g, w)) hnd.2 hmem

/-! ## Concrete sample values used by witnesses -/

/-- A base style record (all fields default). -/
def base0 : StyleRecord := {}

/-- A duplicate-free override list. -/
def ov0 : List (FieldName × SVal) := [(.size, 3), (.margin, 4)]

/-- An override list naming the `size` field twice. -/
def ovDup : List (FieldName × SVal) := [(.size, 1), (.size, 2)]

/-! ## Claims C6, C7, C8 -/

/-- C6: for every base style record and every override set in which no
field name repeats, the merge succeeds and the merged record has, for each
field named in the override set, exactly the override's value, and for
every field not named, a value identical to the base record's value. -/
theorem C6_styleMerge_no_dup (base : StyleRecord)
    (ov : List (FieldName × SVal)) (hnd : (ov.map Prod.fst).Nodup) :
    ∃ r, styleMerge base ov = some r ∧
      (∀ f v, (f, v) ∈ ov → getField r f = v) ∧
      (∀ f, f ∉ ov.map Prod.fst → getField r f = getField base f) := by
  refine ⟨ov.foldl setField base, ?_, ?_, ?_⟩
  · simp [styleMerge, hnd]
  · intro f v h
    exact getField_foldl_mem ov base f v hnd h
  · intro f h
    exact getField_foldl_not_mem ov base f h

/-- Witness for C6 at a concrete input. -/
theorem C6_styleMerge_no_dup_witness :
    ∃ r, styleMerge base0 ov0 = some r ∧
      (∀ f v, (f, v) ∈ ov0 → getField r f = v) ∧
      (∀ f, f ∉ ov0.map Prod.fst → getField r f = getField base0 f) :=
  C6_styleMerge_no_dup base0 ov0 (by decide)

/-- C7 counterexample: an override set naming `size` twice does not merge
successfully — the generated struct expression names the field twice,
which Rust rejects at definition time (E0062); there is no last-write-wins
result. -/
theorem C7_cex : styleMerge base0 ovDup = none := by decide

/-- C7 (amended): an override set in which some field name repeats is
rejected at definition time — `styleMerge` yields no merged record. -/
theorem C7_dup_rejected (base : StyleRecord) (ov : List (FieldName × SVal))
    (h : ¬ (ov.map Prod.fst).Nodup) : styleMerge base ov = none := by
  simp [styleMerge, h]

/-- Witness for the amended C7 at a concrete input. -/
theorem C7_dup_rejected_witness : styleMerge base0 ovDup = none :=
  C7_dup_rejected base0 ovDup (by decide)

/-- C8: the box-edges shorthand: arity 1 sets all four edges to the single
value; arity 2 sets left = right = first and top = bottom = second; arity
4 assigns left, top, right, bottom in that literal order; arity 3 or ≥ 5
matches no macro arm and is rejected at definition time. -/
theorem C8_rect_shorthand :
    (∀ x, rect [x] = some ⟨x, x, x, x⟩) ∧
    (∀ x y, rect [x, y] = some ⟨x, y, x, y⟩) ∧
    (∀ l t r b, rect [l, t, r, b] = some ⟨l, t, r, b⟩) ∧
    (∀ args : List Val, args.length = 3 ∨ 5 ≤ args.length →
      rect args = none) := by
  refine ⟨fun x => rfl, fun x y => rfl, fun l t r b => rfl, ?_⟩
  intro args h
  rcases args with _ | ⟨a, _ | ⟨b, _ | ⟨c, _ | ⟨d, _ | ⟨e, rest⟩⟩⟩⟩⟩ <;>
    first
      | rfl
      | simp at h

/-- Witness for C8's rejection clause at a concrete arity-3 input. -/
theorem C8_rect_shorthand_witness : rect [Val.auto, Val.auto, Val.auto] = none :=
  C8_rect_shorthand.2.2.2 [Val.auto, Val.auto, Val.auto] (Or.inl rfl)

/-! ## Expansion helper lemmas -/

/-- Inversion of a successful `expandNode` on a general (`node`) entry. -/
theorem expandNode_node_inv (env : Env) (penv : PredEnv)
    (par : Option EntityId) (f : EntityId) (name : String)
    (ovs : Option (List (FieldName × SVal))) (bs cs : List Nat)
    (ch : ChildList) (h f' : EntityId) (ops : List Op) (log : List Nat)
    (hx : expandNode env penv par f (.node name ovs bs cs ch) =
      .ok (h, f', ops, log)) :
    ∃ tmpl f2 cOps,
      presetExpand env name ovs = .ok tmpl ∧
      expandList env penv f (f + 1) ch = .ok (f2, cOps, log) ∧
      h = f ∧ f' = f2 ∧
      ops = .createEntity f tmpl ::
        ((match par with
          | some p => [Op.linkChild p f]
          | none => []) ++
          (bs.map (Op.attachBundle f) ++
            (cs.map (Op.attachComponent f) ++ cOps))) := by
  simp only [expandNode] at hx
  cases hp : presetExpand env name ovs with
  | error er => rw [hp] at hx; cases hx
  | ok tmpl =>
    rw [hp] at hx
    cases hc : expandList env penv f (f + 1) ch with
    | error er => rw [hc] at hx; cases hx
    | ok tri =>
      obtain ⟨f2, cOps, cLog⟩ := tri
      rw [hc] at hx
      simp only [Except.ok.injEq, Prod.mk.injEq] at hx
      obtain ⟨h1, h2, h3, h4⟩ := hx
      subst h1; subst h2; subst h4
      exact ⟨tmpl, f2, cOps, rfl, rfl, rfl, rfl, h3.symm⟩

/-- Inversion of a successful `presetExpand` with a style-override block
present: the looked-up template must be a `NodeBundle` and the style
fields must merge. -/
theorem presetExpand_some_inv (env : Env) (name : String)
    (ovs : List (FieldName × SVal)) (t : Template)
    (hp : presetExpand env name (some ovs) = .ok t) :
    ∃ st rest merged, env name = some (.nodeBundle st rest) ∧
      styleMerge st ovs = some merged ∧ t = .nodeBundle merged rest := by
  cases he : env name with
  | none => simp [presetExpand, he] at hp
  | some tv =>
    cases tv with
    | unit => simp [presetExpand, he] at hp
    | plain d => simp [presetExpand, he] at hp
    | otherStyled st rest => simp [presetExpand, he] at hp
    | nodeBundle st rest =>
      cases hm : styleMerge st ovs with
      | none => simp [presetExpand, he, hm] at hp
      | some merged =>
        simp only [presetExpand, he, hm, Except.ok.injEq] at hp
        exact ⟨st, rest, merged, rfl, hm, hp.symm⟩

/-! ## Sample environment and trees for witnesses -/

/-- A sample caller scope: `square` is a styleless bundle, `vertical` a
`NodeBundle`, `button` a styled non-`NodeBundle`; nothing else is bound. -/
def env1 : Env := fun n =>
  if n = "square" then some (.plain 3)
  else if n = "vertical" then some (.nodeBundle {} 7)
  else if n = "button" then some (.otherStyled {} 9)
  else none

/-- All predicates true. -/
def penvT : PredEnv := fun _ => true

/-- All predicates false. -/
def penvF : PredEnv := fun _ => false

/-- A one-node child list: `square[;10]`. -/
def squareLeaf : ChildList := .cons (.node "square" none [] [10] .nil) .nil

/-! ## Claims C2, C3, C4, C10 -/

/-- C2: a non-root entity-creating node with a parent present emits, in
order: `CreateEntity` first, `LinkChild(parent, handle)` immediately after
creation and before any attachment or child operation, one `AttachBundle`
per extra bundle in declared order, one `AttachComponent` per extra
component in declared order, then the children's operations. -/
theorem C2_node_block_order (env : Env) (penv : PredEnv) (p f : EntityId)
    (name : String) (ovs : Option (List (FieldName × SVal)))
    (bs cs : List Nat) (ch : ChildList) (tmpl : Template) (f2 : EntityId)
    (cOps : List Op) (cLog : List Nat)
    (hp : presetExpand env name ovs = .ok tmpl)
    (hc : expandList env penv f (f + 1) ch = .ok (f2, cOps, cLog)) :
    expandNode env penv (some p) f (.node name ovs bs cs ch) =
      .ok (f, f2,
        Op.createEntity f tmpl :: Op.linkChild p f ::
          (bs.map (Op.attachBundle f) ++
            (cs.map (Op.attachComponent f) ++ cOps)),
        cLog) := by
  simp [expandNode, hp, hc]

/-- Witness for C2: a `vertical{size:5}[8;10](square[;10])` node under
parent 100 starting from fresh handle 0. -/
theorem C2_node_block_order_witness :
    expandNode env1 penvT (some 100) 0
      (.node "vertical" (some [(.size, 5)]) [8] [10] squareLeaf) =
      .ok (0, 2,
        Op.createEntity 0 (.nodeBundle { size := 5 } 7) ::
          Op.linkChild 100 0 ::
          ([8].map (Op.attachBundle 0) ++
            ([10].map (Op.attachComponent 0) ++
              [Op.createEntity 1 (.plain 3), Op.linkChild 0 1,
                Op.attachComponent 1 10])),
        []) :=
  C2_node_block_order env1 penvT 100 0 "vertical" (some [(.size, 5)])
    [8] [10] squareLeaf (.nodeBundle { size := 5 } 7) 2
    [Op.createEntity 1 (.plain 3), Op.linkChild 0 1, Op.attachComponent 1 10]
    [] (by rfl) (by rfl)

/-- C3: a conditional child entry evaluates its predicate exactly once
when the compiler reaches that entry — the evaluation trace of the
expansion is `pid ::` the traces of the chosen branch and of the remaining
siblings — and exactly one branch's operation list is emitted, chosen
solely by the predicate's value: the then-branch if true, the else-branch
if false and present, and zero operations for the entry if false and the
else-branch is absent. -/
theorem C3_conditional :
    (∀ (env : Env) (penv : PredEnv) (par f : EntityId) (pid : Nat)
       (tB rest : ChildList) (f1 : EntityId) (bOps : List Op)
       (bLog : List Nat) (f2 : EntityId) (rOps : List Op) (rLog : List Nat),
      penv pid = true →
      expandList env penv par f tB = .ok (f1, bOps, bLog) →
      expandList env penv par f1 rest = .ok (f2, rOps, rLog) →
      expandList env penv par f (.cons (.condIf pid tB) rest) =
        .ok (f2, bOps ++ rOps, pid :: (bLog ++ rLog))) ∧
    (∀ (env : Env) (penv : PredEnv) (par f : EntityId) (pid : Nat)
       (tB rest : ChildList) (f2 : EntityId) (rOps : List Op) (rLog : List Nat),
      penv pid = false →
      expandList env penv par f rest = .ok (f2, rOps, rLog) →
      expandList env penv par f (.cons (.condIf pid tB) rest) =
        .ok (f2, rOps, pid :: rLog)) ∧
    (∀ (env : Env) (penv : PredEnv) (par f : EntityId) (pid : Nat)
       (tB eB rest : ChildList) (f1 : EntityId) (bOps : List Op)
       (bLog : List Nat) (f2 : EntityId) (rOps : List Op) (rLog : List Nat),
      penv pid = true →
      expandList env penv par f tB = .ok (f1, bOps, bLog) →
      expandList env penv par f1 rest = .ok (f2, rOps, rLog) →
      expandList env penv par f (.cons (.condIfElse pid tB eB) rest) =
        .ok (f2, bOps ++ rOps, pid :: (bLog ++ rLog))) ∧
    (∀ (env : Env) (penv : PredEnv) (par f : EntityId) (pid : Nat)
       (tB eB rest : ChildList) (f1 : EntityId) (bOps : List Op)
       (bLog : List Nat) (f2 : EntityId) (rOps : List Op) (rLog : List Nat),
      penv pid = false →
      expandList env penv par f eB = .ok (f1, bOps, bLog) →
      expandList env penv par f1 rest = .ok (f2, rOps, rLog) →
      expandList env penv par f (.cons (.condIfElse pid tB eB) rest) =
        .ok (f2, bOps ++ rOps, pid :: (bLog ++ rLog))) := by
  refine ⟨?_, ?_, ?_, ?_⟩ <;>
    intro env penv par f pid tB rest
  · intro f1 bOps bLog f2 rOps rLog hpred h1 h2
    simp [expandList, hpred, h1, h2]
  · intro f2 rOps rLog hpred h2
    simp [expandList, hpred, h2]
  · intro eB f1 bOps bLog f2 rOps rLog hpred h1 h2
    simp [expandList, hpred, h1, h2]
  · intro eB f1 bOps bLog f2 rOps rLog hpred h1 h2
    simp [expandList, hpred, h1, h2]

/-- Witness for C3 (false predicate, no else-branch): the entry emits zero
operations but its predicate is still evaluated exactly once. -/
theorem C3_conditional_witness :
    expandList env1 penvF 0 1 (.cons (.condIf 0 squareLeaf) .nil) =
      .ok (1, [], [0]) :=
  C3_conditional.2.1 env1 penvF 0 1 0 squareLeaf .nil 1 [] [] rfl rfl

/-- C4: an `id(entity)` entry as a child emits exactly one operation,
`LinkChild(parent, id)` — no `CreateEntity`, `AttachBundle` or
`AttachComponent` — and at the tree root it is rejected as a
definition-time error before any operation is emitted (`Commands` has no
`parent_entity`). -/
theorem C4_existing_entity :
    (∀ (env : Env) (penv : PredEnv) (p f id : EntityId),
      expandNode env penv (some p) f (.existing id) =
        .ok (id, f, [.linkChild p id], [])) ∧
    (∀ (env : Env) (penv : PredEnv) (id : EntityId),
      buildUI env penv (.existing id) = .error .rootExisting) :=
  ⟨fun _ _ _ _ _ => rfl, fun _ _ _ => rfl⟩

/-- C10: if a node with a style-override block expands successfully, the
looked-up preset was necessarily a `NodeBundle`, and the template passed
to its `CreateEntity` is the `NodeBundle` whose style field is the merged
style and whose remaining fields are copied from the preset. -/
theorem C10_overrides_take_nodeBundle (env : Env) (penv : PredEnv)
    (par : Option EntityId) (f : EntityId) (name : String)
    (ovs : List (FieldName × SVal)) (bs cs : List Nat) (ch : ChildList)
    (h f' : EntityId) (ops : List Op) (log : List Nat)
    (hx : expandNode env penv par f (.node name (some ovs) bs cs ch) =
      .ok (h, f', ops, log)) :
    ∃ st rest merged, env name = some (.nodeBundle st rest) ∧
      styleMerge st ovs = some merged ∧
      ops.head? = some (.createEntity h (.nodeBundle merged rest)) := by
  obtain ⟨tmpl, f2, cOps, hp, hc, rfl, rfl, rfl⟩ :=
    expandNode_node_inv env penv par f name (some ovs) bs cs ch h f' ops log hx
  obtain ⟨st, rest, merged, he, hm, rfl⟩ :=
    presetExpand_some_inv env name ovs tmpl hp
  exact ⟨st, rest, merged, he, hm, rfl⟩

/-- Witness for C10 at a concrete input: overrides on the `vertical`
`NodeBundle` preset. -/
theorem C10_overrides_take_nodeBundle_witness :
    ∃ st rest merged, env1 "vertical" = some (.nodeBundle st rest) ∧
      styleMerge st [(.size, 5)] = some merged ∧
      (Op.createEntity 0 (.nodeBundle { size := 5 } 7) :: []).head? =
        some (.createEntity 0 (.nodeBundle merged rest)) :=
  C10_overrides_take_nodeBundle env1 penvT none 0 "vertical" [(.size, 5)]
    [] [] .nil 0 1 [Op.createEntity 0 (.nodeBundle { size := 5 } 7)] []
    (by rfl)

/-! ## Claim C9 -/

/-- A style-override block over a preset that is unknown or does not carry
a style record is a definition-time error. -/
theorem presetExpand_styleless (env : Env) (name : String)
    (l : List (FieldName × SVal))
    (h : (match env name with
          | some t => !carriesStyle t
          | none => true) = true) :
    ∃ er, presetExpand env name (some l) = .error er := by
  cases he : env name with
  | none => exact ⟨.unknownPreset name, by simp [presetExpand, he]⟩
  | some t =>
    simp only [he] at h
    cases t with
    | unit => exact ⟨.styleOnStyleless, by simp [presetExpand, he]⟩
    | plain d => exact ⟨.styleOnStyleless, by simp [presetExpand, he]⟩
    | nodeBundle st rest => simp [carriesStyle] at h
    | otherStyled st rest => simp [carriesStyle] at h

mutual
/-- A tree entry containing a non-empty style-override block over a
styleless (or unbound) preset fails the definition-time check. -/
theorem hasBadStyleE_check (env : Env) (e : ChildEntry) (root : Bool)
    (h : hasBadStyleE env e = true) :
    ∃ er, checkNode env root e = .error er := by
  cases e with
  | existing id => simp [hasBadStyleE] at h
  | node name ovs bs cs children =>
    cases ovs with
    | none =>
      simp only [hasBadStyleE, Bool.false_or] at h
      obtain ⟨er, hcl⟩ := hasBadStyleL_check env children h
      cases hp : presetExpand env name none with
      | error e2 => exact ⟨e2, by simp [checkNode, hp]⟩
      | ok tmpl => exact ⟨er, by simp [checkNode, hp, hcl]⟩
    | some l =>
      simp only [hasBadStyleE] at h
      rcases (Bool.or_eq_true _ _).mp h with hA | hB
      · obtain ⟨er, hpe⟩ :=
          presetExpand_styleless env name l (Bool.and_eq_true .. ▸ hA).2
        exact ⟨er, by simp [checkNode, hpe]⟩
      · obtain ⟨er, hcl⟩ := hasBadStyleL_check env children hB
        cases hp : presetExpand env name (some l) with
        | error e2 => exact ⟨e2, by simp [checkNode, hp]⟩
        | ok tmpl => exact ⟨er, by simp [checkNode, hp, hcl]⟩
  | condIf pid tB =>
    simp only [hasBadStyleE] at h
    cases root with
    | true => exact ⟨.rootConditional, rfl⟩
    | false =>
      obtain ⟨er, hcl⟩ := hasBadStyleL_check env tB h
      exact ⟨er, by simp [checkNode, hcl]⟩
  | condIfElse pid tB eB =>
    simp only [hasBadStyleE] at h
    cases root with
    | true => exact ⟨.rootConditional, rfl⟩
    | false =>
      rcases (Bool.or_eq_true _ _).mp h with hT | hE
      · obtain ⟨er, hcl⟩ := hasBadStyleL_check env tB hT
        exact ⟨er, by simp [checkNode, hcl]⟩
      · cases hct : checkList env tB with
        | error e2 => exact ⟨e2, by simp [checkNode, hct]⟩
        | ok u =>
          obtain ⟨er, hcl⟩ := hasBadStyleL_check env eB hE
          exact ⟨er, by simp [checkNode, hct, hcl]⟩

/-- List version of `hasBadStyleE_check`. -/
theorem hasBadStyleL_check (env : Env) (l : ChildList)
    (h : hasBadStyleL env l = true) :
    ∃ er, checkList env l = .error er := by
  cases l with
  | nil => simp [hasBadStyleL] at h
  | cons e rest =>
    simp only [hasBadStyleL] at h
    rcases (Bool.or_eq_true _ _).mp h with hE | hR
    · obtain ⟨er, hce⟩ := hasBadStyleE_check env e false hE
      exact ⟨er, by simp [checkList, hce]⟩
    · cases hce : checkNode env false e with
      | error e2 => exact ⟨e2, by simp [checkList, hce]⟩
      | ok u =>
        obtain ⟨er, hcr⟩ := hasBadStyleL_check env rest hR
        exact ⟨er, by simp [checkList, hce, hcr]⟩
end

/-- C9: a tree containing any node (in any conditional branch — the macro
expands all of them) with a non-empty style-override block whose resolved
template does not carry a style record fails with a definition-time error;
the whole invocation yields an error and no operation at all — never a
partial stream. -/
theorem C9_styleless_override_fails (env : Env) (penv : PredEnv)
    (t : ChildEntry) (h : hasBadStyleE env t = true) :
    ∃ er, buildUI env penv t = .error er := by
  obtain ⟨er, hc⟩ := hasBadStyleE_check env t true h
  exact ⟨er, by simp [buildUI, hc]⟩

/-- Witness for C9: overrides on the styleless `square` preset, buried in
the else-branch of a conditional whose predicate is true — the error is
raised anyway, at definition time. -/
theorem C9_styleless_override_fails_witness :
    ∃ er, buildUI env1 penvT
      (.node "vertical" none [] []
        (.cons (.condIfElse 0 squareLeaf
          (.cons (.node "square" (some [(.size, 1)]) [] [] .nil) .nil))
          .nil)) = .error er :=
  C9_styleless_override_fails env1 penvT
    (.node "vertical" none [] []
      (.cons (.condIfElse 0 squareLeaf
        (.cons (.node "square" (some [(.size, 1)]) [] [] .nil) .nil))
        .nil))
    (by rfl)

/-! ## Claim C1 -/

mutual
/-- On conditional-free entries, the runtime expansion emits exactly the
spec's pre-order stream. -/
theorem expandE_preorder (e : ChildEntry) (env : Env) (penv : PredEnv)
    (par : Option EntityId) (f h f' : EntityId) (ops : List Op)
    (log : List Nat) (hnc : noCondE e = true)
    (hx : expandNode env penv par f e = .ok (h, f', ops, log)) :
    preorderE env par f e = some (h, f', ops) := by
  cases e with
  | existing id =>
    cases par with
    | some p =>
      simp only [expandNode, Except.ok.injEq, Prod.mk.injEq] at hx
      obtain ⟨rfl, rfl, rfl, rfl⟩ := hx
      rfl
    | none => simp [expandNode] at hx
  | node name ovs bs cs children =>
    simp only [noCondE] at hnc
    obtain ⟨tmpl, f2, cOps, hp, hc, rfl, rfl, rfl⟩ :=
      expandNode_node_inv env penv par f name ovs bs cs children _ _ _ _ hx
    have hpl :=
      expandL_preorder children env penv h (h + 1) f' cOps log hnc hc
    cases par <;>
      simp [preorderE, hp, hpl, List.append_assoc]
  | condIf pid tB => simp [noCondE] at hnc
  | condIfElse pid tB eB => simp [noCondE] at hnc

/-- List version of `expandE_preorder`. -/
theorem expandL_preorder (l : ChildList) (env : Env) (penv : PredEnv)
    (par f f' : EntityId) (ops : List Op) (log : List Nat)
    (hnc : noCondL l = true)
    (hx : expandList env penv par f l = .ok (f', ops, log)) :
    preorderL env par f l = some (f', ops) := by
  cases l with
  | nil =>
    simp only [expandList, Except.ok.injEq, Prod.mk.injEq] at hx
    obtain ⟨rfl, rfl, rfl⟩ := hx
    rfl
  | cons e rest =>
    simp only [noCondL, Bool.and_eq_true] at hnc
    cases e with
    | condIf pid tB => simp [noCondE] at hnc
    | condIfElse pid tB eB => simp [noCondE] at hnc
    | existing id =>
      simp only [expandList] at hx
      cases hn : expandNode env penv (some par) f (.existing id) with
      | error er => rw [hn] at hx; cases hx
      | ok tup =>
        obtain ⟨hE, f1, ops1, log1⟩ := tup
        simp only [hn] at hx
        cases hr : expandList env penv par f1 rest with
        | error er => rw [hr] at hx; cases hx
        | ok tup2 =>
          obtain ⟨f2, rOps, rLog⟩ := tup2
          rw [hr] at hx
          simp only [Except.ok.injEq, Prod.mk.injEq] at hx
          obtain ⟨rfl, rfl, rfl⟩ := hx
          have h1 := expandE_preorder (.existing id) env penv (some par) f
            hE f1 ops1 log1 hnc.1 hn
          have h2 := expandL_preorder rest env penv par f1 f2 rOps rLog
            hnc.2 hr
          simp [preorderL, h1, h2]
    | node name ovs bs cs children =>
      simp only [expandList] at hx
      cases hn : expandNode env penv (some par) f (.node name ovs bs cs children) with
      | error er => rw [hn] at hx; cases hx
      | ok tup =>
        obtain ⟨hE, f1, ops1, log1⟩ := tup
        simp only [hn] at hx
        cases hr : expandList env penv par f1 rest with
        | error er => rw [hr] at hx; cases hx
        | ok tup2 =>
          obtain ⟨f2, rOps, rLog⟩ := tup2
          rw [hr] at hx
          simp only [Except.ok.injEq, Prod.mk.injEq] at hx
          obtain ⟨rfl, rfl, rfl⟩ := hx
          have h1 := expandE_preorder (.node name ovs bs cs children) env penv
            (some par) f hE f1 ops1 log1 hnc.1 hn
          have h2 := expandL_preorder rest env penv par f1 f2 rOps rLog
            hnc.2 hr
          simp [preorderL, h1, h2]
end

/-- C1: for a tree with no conditional entries, the operation stream of a
successful `build_ui!` invocation is exactly the spec's pre-order
traversal stream: each node's own `CreateEntity` + `LinkChild` +
attachment block precedes all operations of its children, and sibling
blocks appear strictly in declared order. -/
theorem C1_preorder_stream (env : Env) (penv : PredEnv) (t : ChildEntry)
    (ops : List Op) (hnc : noCondE t = true)
    (hb : buildUI env penv t = .ok ops) :
    ∃ h f', preorderE env none 0 t = some (h, f', ops) := by
  simp only [buildUI] at hb
  cases hck : checkNode env true t with
  | error er => simp [hck] at hb
  | ok u =>
    simp only [hck] at hb
    cases hx : expandNode env penv none 0 t with
    | error er => simp [hx] at hb
    | ok tup =>
      obtain ⟨h, f', ops', log⟩ := tup
      simp only [hx, Except.ok.injEq] at hb
      subst hb
      exact ⟨h, f', expandE_preorder t env penv none 0 h f' ops' log hnc hx⟩

/-- Witness for C1: a concrete conditional-free two-level tree. -/
theorem C1_preorder_stream_witness :
    ∃ h f', preorderE env1 none 0
      (.node "vertical" (some [(.size, 5)]) [] [] squareLeaf) =
      some (h, f',
        [Op.createEntity 0 (.nodeBundle { size := 5 } 7),
          Op.createEntity 1 (.plain 3), Op.linkChild 0 1,
          Op.attachComponent 1 10]) :=
  C1_preorder_stream env1 penvT
    (.node "vertical" (some [(.size, 5)]) [] [] squareLeaf)
    [Op.createEntity 0 (.nodeBundle { size := 5 } 7),
      Op.createEntity 1 (.plain 3), Op.linkChild 0 1,
      Op.attachComponent 1 10]
    (by rfl) (by rfl)

/-! ## Claim C5: freshness of created handles -/

theorem createdHandles_append (a b : List Op) :
    createdHandles (a ++ b) = createdHandles a ++ createdHandles b := by
  induction a with
  | nil => rfl
  | cons op rest ih => cases op <;> simp [createdHandles, ih]

theorem createdHandles_attachB (h : EntityId) (bs : List Nat) :
    createdHandles (bs.map (Op.attachBundle h)) = [] := by
  induction bs with
  | nil => rfl
  | cons b rest ih => simpa [createdHandles] using ih

theorem createdHandles_attachC (h : EntityId) (cs : List Nat) :
    createdHandles (cs.map (Op.attachComponent h)) = [] := by
  induction cs with
  | nil => rfl
  | cons c rest ih => simpa [createdHandles] using ih

/-- Sequencing two emission windows: bounds and distinctness of created
handles compose. -/
theorem seq_facts {A B : List Op} {f f1 f2 : EntityId}
    (hA : f ≤ f1 ∧ (∀ x ∈ createdHandles A, f ≤ x ∧ x < f1) ∧
      (createdHandles A).Nodup)
    (hB : f1 ≤ f2 ∧ (∀ x ∈ createdHandles B, f1 ≤ x ∧ x < f2) ∧
      (createdHandles B).Nodup) :
    f ≤ f2 ∧ (∀ x ∈ createdHandles (A ++ B), f ≤ x ∧ x < f2) ∧
      (createdHandles (A ++ B)).Nodup := by
  obtain ⟨h1, h2, h3⟩ := hA
  obtain ⟨k1, k2, k3⟩ := hB
  refine ⟨le_trans h1 k1, ?_, ?_⟩
  · intro x hx
    rw [createdHandles_append, List.mem_append] at hx
    rcases hx with hx | hx
    · exact ⟨(h2 x hx).1, lt_of_lt_of_le (h2 x hx).2 k1⟩
    · exact ⟨le_trans h1 (k2 x hx).1, (k2 x hx).2⟩
  · rw [createdHandles_append]
    refine h3.append k3 ?_
    intro x hxa hxb
    exact absurd (k2 x hxb).1 (not_le.mpr (h2 x hxa).2)

mutual
/-- Every `CreateEntity` handle emitted by an entry expanded from fresh
handle `f` lies in the window `[f, f')`, the fresh counter never
decreases, and the created handles are pairwise distinct. -/
theorem expandE_fresh (e : ChildEntry) (env : Env) (penv : PredEnv)
    (par : Option EntityId) (f h f' : EntityId) (ops : List Op)
    (log : List Nat)
    (hx : expandNode env penv par f e = .ok (h, f', ops, log)) :
    f ≤ f' ∧ (∀ x ∈ createdHandles ops, f ≤ x ∧ x < f') ∧
      (createdHandles ops).Nodup := by
  cases e with
  | existing id =>
    cases par with
    | some p =>
      simp only [expandNode, Except.ok.injEq, Prod.mk.injEq] at hx
      obtain ⟨rfl, rfl, rfl, rfl⟩ := hx
      simp [createdHandles]
    | none => simp [expandNode] at hx
  | node name ovs bs cs children =>
    obtain ⟨tmpl, f2, cOps, hp, hc, rfl, rfl, rfl⟩ :=
      expandNode_node_inv env penv par f name ovs bs cs children _ _ _ _ hx
    obtain ⟨ih1, ih2, ih3⟩ :=
      expandL_fresh children env penv h (h + 1) f' cOps log hc
    clear hx
    have hch : createdHandles
        (Op.createEntity h tmpl ::
          ((match par with
            | some p => [Op.linkChild p h]
            | none => []) ++
            (bs.map (Op.attachBundle h) ++
              (cs.map (Op.attachComponent h) ++ cOps)))) =
        h :: createdHandles cOps := by
      cases par <;>
        simp [createdHandles, createdHandles_append, createdHandles_attachB,
          createdHandles_attachC]
    rw [hch]
    refine ⟨le_trans (Nat.le_succ h) ih1, ?_, ?_⟩
    · intro x hmem
      rcases List.mem_cons.mp hmem with rfl | hmem
      · exact ⟨le_refl x, Nat.lt_of_succ_le ih1⟩
      · have hb := ih2 x hmem
        exact ⟨le_trans (Nat.le_succ h) hb.1, hb.2⟩
    · refine List.nodup_cons.mpr ⟨fun hmem => ?_, ih3⟩
      exact absurd (ih2 h hmem).1 (Nat.not_succ_le_self h)
  | condIf pid tB => simp [expandNode] at hx
  | condIfElse pid tB eB => simp [expandNode] at hx

/-- List version of `expandE_fresh`. -/
theorem expandL_fresh (l : ChildList) (env : Env) (penv : PredEnv)
    (par f f' : EntityId) (ops : List Op) (log : List Nat)
    (hx : expandList env penv par f l = .ok (f', ops, log)) :
    f ≤ f' ∧ (∀ x ∈ createdHandles ops, f ≤ x ∧ x < f') ∧
      (createdHandles ops).Nodup := by
  cases l with
  | nil =>
    simp only [expandList, Except.ok.injEq, Prod.mk.injEq] at hx
    obtain ⟨rfl, rfl, rfl⟩ := hx
    simp [createdHandles]
  | cons e rest =>
    cases e with
    | existing id =>
      simp only [expandList] at hx
      cases hn : expandNode env penv (some par) f (.existing id) with
      | error er => rw [hn] at hx; cases hx
      | ok tup =>
        obtain ⟨hE, f1, ops1, log1⟩ := tup
        simp only [hn] at hx
        cases hr : expandList env penv par f1 rest with
        | error er => rw [hr] at hx; cases hx
        | ok tup2 =>
          obtain ⟨f2, rOps, rLog⟩ := tup2
          rw [hr] at hx
          simp only [Except.ok.injEq, Prod.mk.injEq] at hx
          obtain ⟨rfl, rfl, rfl⟩ := hx
          exact seq_facts
            (expandE_fresh (.existing id) env penv (some par) f hE f1 ops1 log1 hn)
            (expandL_fresh rest env penv par f1 f2 rOps rLog hr)
    | node name ovs bs cs children =>
      simp only [expandList] at hx
      cases hn : expandNode env penv (some par) f (.node name ovs bs cs children) with
      | error er => rw [hn] at hx; cases hx
      | ok tup =>
        obtain ⟨hE, f1, ops1, log1⟩ := tup
        simp only [hn] at hx
        cases hr : expandList env penv par f1 rest with
        | error er => rw [hr] at hx; cases hx
        | ok tup2 =>
          obtain ⟨f2, rOps, rLog⟩ := tup2
          rw [hr] at hx
          simp only [Except.ok.injEq, Prod.mk.injEq] at hx
          obtain ⟨rfl, rfl, rfl⟩ := hx
          exact seq_facts
            (expandE_fresh (.node name ovs bs cs children) env penv (some par)
              f hE f1 ops1 log1 hn)
            (expandL_fresh rest env penv par f1 f2 rOps rLog hr)
    | condIf pid tB =>
      simp only [expandList] at hx
      cases hpred : penv pid with
      | true =>
        simp only [hpred] at hx
        cases hb : expandList env penv par f tB with
        | error er => simp only [hb] at hx; cases hx
        | ok tup =>
          obtain ⟨f1, bOps, bLog⟩ := tup
          simp only [hb, if_true] at hx
          cases hr : expandList env penv par f1 rest with
          | error er => rw [hr] at hx; cases hx
          | ok tup2 =>
            obtain ⟨f2, rOps, rLog⟩ := tup2
            rw [hr] at hx
            simp only [Except.ok.injEq, Prod.mk.injEq] at hx
            obtain ⟨rfl, rfl, rfl⟩ := hx
            exact seq_facts
              (expandL_fresh tB env penv par f f1 bOps bLog hb)
              (expandL_fresh rest env penv par f1 f2 rOps rLog hr)
      | false =>
        simp only [hpred, Bool.false_eq_true, if_false] at hx
        cases hr : expandList env penv par f rest with
        | error er => rw [hr] at hx; cases hx
        | ok tup2 =>
          obtain ⟨f2, rOps, rLog⟩ := tup2
          rw [hr] at hx
          simp only [Except.ok.injEq, Prod.mk.injEq] at hx
          obtain ⟨rfl, rfl, rfl⟩ := hx
          simpa using expandL_fresh rest env penv par f f2 rOps rLog hr
    | condIfElse pid tB eB =>
      simp only [expandList] at hx
      cases hpred : penv pid with
      | true =>
        simp only [hpred, if_true] at hx
        cases hb : expandList env penv par f tB with
        | error er => simp only [hb] at hx; cases hx
        | ok tup =>
          obtain ⟨f1, bOps, bLog⟩ := tup
          simp only [hb] at hx
          cases hr : expandList env penv par f1 rest with
          | error er => rw [hr] at hx; cases hx
          | ok tup2 =>
            obtain ⟨f2, rOps, rLog⟩ := tup2
            rw [hr] at hx
            simp only [Except.ok.injEq, Prod.mk.injEq] at hx
            obtain ⟨rfl, rfl, rfl⟩ := hx
            exact seq_facts
              (expandL_fresh tB env penv par f f1 bOps bLog hb)
              (expandL_fresh rest env penv par f1 f2 rOps rLog hr)
      | false =>
        simp only [hpred, Bool.false_eq_true, if_false] at hx
        cases hb : expandList env penv par f eB with
        | error er => simp only [hb] at hx; cases hx
        | ok tup =>
          obtain ⟨f1, bOps, bLog⟩ := tup
          simp only [hb] at hx
          cases hr : expandList env penv par f1 rest with
          | error er => rw [hr] at hx; cases hx
          | ok tup2 =>
            obtain ⟨f2, rOps, rLog⟩ := tup2
            rw [hr] at hx
            simp only [Except.ok.injEq, Prod.mk.injEq] at hx
            obtain ⟨rfl, rfl, rfl⟩ := hx
            exact seq_facts
              (expandL_fresh eB env penv par f f1 bOps bLog hb)
              (expandL_fresh rest env penv par f1 f2 rOps rLog hr)
end

/-- A successful expansion of a concatenated child list splits into
successive successful expansions of the two halves. -/
theorem expandList_append_inv (l1 : ChildList) :
    ∀ (l2 : ChildList) (env : Env) (penv : PredEnv) (par f fT : EntityId)
      (ops : List Op) (log : List Nat),
    expandList env penv par f (l1.append l2) = .ok (fT, ops, log) →
    ∃ f1 ops1 log1 ops2 log2,
      expandList env penv par f l1 = .ok (f1, ops1, log1) ∧
      expandList env penv par f1 l2 = .ok (fT, ops2, log2) ∧
      ops = ops1 ++ ops2 ∧ log = log1 ++ log2 := by
  cases l1 with
  | nil =>
    intro l2 env penv par f fT ops log hx
    exact ⟨f, [], [], ops, log, rfl, hx, rfl, rfl⟩
  | cons e rest =>
    intro l2 env penv par f fT ops log hx
    cases e with
    | existing id =>
      simp only [ChildList.append, expandList] at hx
      cases hn : expandNode env penv (some par) f (.existing id) with
      | error er => rw [hn] at hx; cases hx
      | ok tup =>
        obtain ⟨hE, fa, opsE, logE⟩ := tup
        simp only [hn] at hx
        cases hr : expandList env penv par fa (rest.append l2) with
        | error er => rw [hr] at hx; cases hx
        | ok tup2 =>
          obtain ⟨fb, opsR, logR⟩ := tup2
          rw [hr] at hx
          simp only [Except.ok.injEq, Prod.mk.injEq] at hx
          obtain ⟨rfl, rfl, rfl⟩ := hx
          obtain ⟨f1, ops1, log1, ops2, log2, ha, hb, rfl, rfl⟩ :=
            expandList_append_inv rest l2 env penv par fa fb opsR logR hr
          refine ⟨f1, opsE ++ ops1, logE ++ log1, ops2, log2, ?_, hb, ?_, ?_⟩
          · simp [expandList, hn, ha]
          · simp [List.append_assoc]
          · simp [List.append_assoc]
    | node name ovs bs cs children =>
      simp only [ChildList.append, expandList] at hx
      cases hn : expandNode env penv (some par) f (.node name ovs bs cs children) with
      | error er => rw [hn] at hx; cases hx
      | ok tup =>
        obtain ⟨hE, fa, opsE, logE⟩ := tup
        simp only [hn] at hx
        cases hr : expandList env penv par fa (rest.append l2) with
        | error er => rw [hr] at hx; cases hx
        | ok tup2 =>
          obtain ⟨fb, opsR, logR⟩ := tup2
          rw [hr] at hx
          simp only [Except.ok.injEq, Prod.mk.injEq] at hx
          obtain ⟨rfl, rfl, rfl⟩ := hx
          obtain ⟨f1, ops1, log1, ops2, log2, ha, hb, rfl, rfl⟩ :=
            expandList_append_inv rest l2 env penv par fa fb opsR logR hr
          refine ⟨f1, opsE ++ ops1, logE ++ log1, ops2, log2, ?_, hb, ?_, ?_⟩
          · simp [expandList, hn, ha]
          · simp [List.append_assoc]
          · simp [List.append_assoc]
    | condIf pid tB =>
      simp only [ChildList.append, expandList] at hx
      cases hpred : penv pid with
      | true =>
        simp only [hpred, if_true] at hx
        cases hb0 : expandList env penv par f tB with
        | error er => simp only [hb0] at hx; cases hx
        | ok tup =>
          obtain ⟨fa, bOps, bLog⟩ := tup
          simp only [hb0] at hx
          cases hr : expandList env penv par fa (rest.append l2) with
          | error er => rw [hr] at hx; cases hx
          | ok tup2 =>
            obtain ⟨fb, opsR, logR⟩ := tup2
            rw [hr] at hx
            simp only [Except.ok.injEq, Prod.mk.injEq] at hx
            obtain ⟨rfl, rfl, rfl⟩ := hx
            obtain ⟨f1, ops1, log1, ops2, log2, ha, hbr, rfl, rfl⟩ :=
              expandList_append_inv rest l2 env penv par fa fb opsR logR hr
            refine ⟨f1, bOps ++ ops1, pid :: (bLog ++ log1), ops2, log2,
              ?_, hbr, ?_, ?_⟩
            · simp [expandList, hpred, hb0, ha]
            · simp [List.append_assoc]
            · simp [List.append_assoc]
      | false =>
        simp only [hpred, Bool.false_eq_true, if_false] at hx
        cases hr : expandList env penv par f (rest.append l2) with
        | error er => rw [hr] at hx; cases hx
        | ok tup2 =>
          obtain ⟨fb, opsR, logR⟩ := tup2
          rw [hr] at hx
          simp only [Except.ok.injEq, Prod.mk.injEq, List.nil_append] at hx
          obtain ⟨rfl, rfl, rfl⟩ := hx
          obtain ⟨f1, ops1, log1, ops2, log2, ha, hbr, rfl, rfl⟩ :=
            expandList_append_inv rest l2 env penv par f fb opsR logR hr
          refine ⟨f1, ops1, pid :: log1, ops2, log2, ?_, hbr, rfl, ?_⟩
          · simp [expandList, hpred, ha]
          · simp
    | condIfElse pid tB eB =>
      simp only [ChildList.append, expandList] at hx
      cases hpred : penv pid with
      | true =>
        simp only [hpred, if_true] at hx
        cases hb0 : expandList env penv par f tB with
        | error er => simp only [hb0] at hx; cases hx
        | ok tup =>
          obtain ⟨fa, bOps, bLog⟩ := tup
          simp only [hb0] at hx
          cases hr : expandList env penv par fa (rest.append l2) with
          | error er => rw [hr] at hx; cases hx
          | ok tup2 =>
            obtain ⟨fb, opsR, logR⟩ := tup2
            rw [hr] at hx
            simp only [Except.ok.injEq, Prod.mk.injEq] at hx
            obtain ⟨rfl, rfl, rfl⟩ := hx
            obtain ⟨f1, ops1, log1, ops2, log2, ha, hbr, rfl, rfl⟩ :=
              expandList_append_inv rest l2 env penv par fa fb opsR logR hr
            refine ⟨f1, bOps ++ ops1, pid :: (bLog ++ log1), ops2, log2,
              ?_, hbr, ?_, ?_⟩
            · simp [expandList, hpred, hb0, ha]
            · simp [List.append_assoc]
            · simp [List.append_assoc]
      | false =>
        simp only [hpred, Bool.false_eq_true, if_false] at hx
        cases hb0 : expandList env penv par f eB with
        | error er => simp only [hb0] at hx; cases hx
        | ok tup =>
          obtain ⟨fa, bOps, bLog⟩ := tup
          simp only [hb0] at hx
          cases hr : expandList env penv par fa (rest.append l2) with
          | error er => rw [hr] at hx; cases hx
          | ok tup2 =>
            obtain ⟨fb, opsR, logR⟩ := tup2
            rw [hr] at hx
            simp only [Except.ok.injEq, Prod.mk.injEq] at hx
            obtain ⟨rfl, rfl, rfl⟩ := hx
            obtain ⟨f1, ops1, log1, ops2, log2, ha, hbr, rfl, rfl⟩ :=
              expandList_append_inv rest l2 env penv par fa fb opsR logR hr
            refine ⟨f1, bOps ++ ops1, pid :: (bLog ++ log1), ops2, log2,
              ?_, hbr, ?_, ?_⟩
            · simp [expandList, hpred, hb0, ha]
            · simp [List.append_assoc]
            · simp [List.append_assoc]

/-- A bare preset ident other than the keyword `entity` resolves to the
variable's value. -/
theorem presetExpand_var (env : Env) (n : String) (t : Template)
    (hne : n ≠ "entity") (he : env n = some t) :
    presetExpand env n none = .ok t := by
  simp [presetExpand, hne, he]

/-- C5: created entities are never aliased — every expansion creates
pairwise-distinct entities (all `CreateEntity` handles are distinct), and
two sibling nodes referencing the same preset name each emit their own
`CreateEntity` whose template is the same caller-scope value (the value is
only read — `.clone()`d — per use, never consumed or mutated). -/
theorem C5_preset_reuse :
    (∀ (env : Env) (penv : PredEnv) (par : Option EntityId) (f : EntityId)
       (e : ChildEntry) (h f' : EntityId) (ops : List Op) (log : List Nat),
      expandNode env penv par f e = .ok (h, f', ops, log) →
      (createdHandles ops).Nodup) ∧
    (∀ (env : Env) (penv : PredEnv) (par f : EntityId) (n : String)
       (t : Template) (l1 l2 l3 : ChildList) (bs1 cs1 : List Nat)
       (ch1 : ChildList) (bs2 cs2 : List Nat) (ch2 : ChildList)
       (fT : EntityId) (ops : List Op) (log : List Nat),
      n ≠ "entity" → env n = some t →
      expandList env penv par f
        (l1.append (.cons (.node n none bs1 cs1 ch1)
          (l2.append (.cons (.node n none bs2 cs2 ch2) l3)))) =
        .ok (fT, ops, log) →
      ∃ h1 h2, h1 ≠ h2 ∧ Op.createEntity h1 t ∈ ops ∧
        Op.createEntity h2 t ∈ ops) := by
  constructor
  · intro env penv par f e h f' ops log hx
    exact (expandE_fresh e env penv par f h f' ops log hx).2.2
  · intro env penv par f n t l1 l2 l3 bs1 cs1 ch1 bs2 cs2 ch2 fT ops log
      hne he hx
    obtain ⟨fa, ops1, log1, opsA, logA, hL1, hA, rfl, rfl⟩ :=
      expandList_append_inv l1 _ env penv par f fT ops log hx
    simp only [expandList] at hA
    cases hn1 : expandNode env penv (some par) fa (.node n none bs1 cs1 ch1) with
    | error er => rw [hn1] at hA; cases hA
    | ok tup =>
      obtain ⟨hE1, fb, opsN1, logN1⟩ := tup
      simp only [hn1] at hA
      cases hr1 : expandList env penv par fb
          (l2.append (.cons (.node n none bs2 cs2 ch2) l3)) with
      | error er => rw [hr1] at hA; cases hA
      | ok tup2 =>
        obtain ⟨fc0, opsB, logB⟩ := tup2
        rw [hr1] at hA
        simp only [Except.ok.injEq, Prod.mk.injEq] at hA
        obtain ⟨rfl, rfl, rfl⟩ := hA
        obtain ⟨fc, ops2, log2, opsC, logC, hL2, hC, rfl, rfl⟩ :=
          expandList_append_inv l2 _ env penv par fb fc0 opsB logB hr1
        simp only [expandList] at hC
        cases hn2 : expandNode env penv (some par) fc (.node n none bs2 cs2 ch2) with
        | error er => rw [hn2] at hC; cases hC
        | ok tup3 =>
          obtain ⟨hE2, fd, opsN2, logN2⟩ := tup3
          simp only [hn2] at hC
          cases hr2 : expandList env penv par fd l3 with
          | error er => rw [hr2] at hC; cases hC
          | ok tup4 =>
            obtain ⟨fe, ops3, log3⟩ := tup4
            rw [hr2] at hC
            simp only [Except.ok.injEq, Prod.mk.injEq] at hC
            obtain ⟨rfl, rfl, rfl⟩ := hC
            obtain ⟨t1, g1, cOps1, hp1, hc1, rfl, rfl, rfl⟩ :=
              expandNode_node_inv env penv (some par) fa n none bs1 cs1 ch1
                _ _ _ _ hn1
            rw [presetExpand_var env n t hne he] at hp1
            simp only [Except.ok.injEq] at hp1
            subst hp1
            obtain ⟨t2, g2, cOps2, hp2, hc2, rfl, rfl, rfl⟩ :=
              expandNode_node_inv env penv (some par) fc n none bs2 cs2 ch2
                _ _ _ _ hn2
            rw [presetExpand_var env n t hne he] at hp2
            simp only [Except.ok.injEq] at hp2
            subst hp2
            have m1 := expandE_fresh (.node n none bs1 cs1 ch1) env penv
              (some par) _ _ _ _ logN1 hn1
            have hfa := (m1.2.1 hE1 (by simp [createdHandles])).2
            have m2 := expandL_fresh l2 env penv par fb hE2 ops2 log2 hL2
            have hlt : hE1 < hE2 := lt_of_lt_of_le hfa m2.1
            refine ⟨hE1, hE2, Nat.ne_of_lt hlt, ?_, ?_⟩
            · refine List.mem_append.mpr (Or.inr ?_)
              exact List.mem_append.mpr (Or.inl (List.mem_cons_self _ _))
            · refine List.mem_append.mpr (Or.inr ?_)
              refine List.mem_append.mpr (Or.inr ?_)
              refine List.mem_append.mpr (Or.inr ?_)
              exact List.mem_append.mpr (Or.inl (List.mem_cons_self _ _))

/-- Witness for C5: two sibling `square` nodes under parent 5 — two
distinct `CreateEntity` operations, both populated from the same `square`
template value. -/
theorem C5_preset_reuse_witness :
    ∃ h1 h2, h1 ≠ h2 ∧
      Op.createEntity h1 (.plain 3) ∈
        [Op.createEntity 0 (.plain 3), Op.linkChild 5 0,
          Op.createEntity 1 (.plain 3), Op.linkChild 5 1] ∧
      Op.createEntity h2 (.plain 3) ∈
        [Op.createEntity 0 (.plain 3), Op.linkChild 5 0,
          Op.createEntity 1 (.plain 3), Op.linkChild 5 1] :=
  C5_preset_reuse.2 env1 penvT 5 0 "square" (.plain 3) .nil .nil .nil
    [] [] .nil [] [] .nil 2
    [Op.createEntity 0 (.plain 3), Op.linkChild 5 0,
      Op.createEntity 1 (.plain 3), Op.linkChild 5 1]
    [] (by decide) (by rfl) (by rfl)

end BevyUiBuild
